import Mathlib

/-!
Verification of the face-recognition backend (`python_backend/app.py`).

The Python source is shallowly embedded: pure helpers become Lean
functions, the label registry (a JSON-backed pair of dicts) becomes an
association-list structure, Python `float` arithmetic is modelled by exact
rationals (`ℚ`), and file-system effects are modelled by explicit state
passing.  Functions keep the source's names where Lean allows it.
-/

namespace Shijue

/-! ### Python string primitives

`str.strip()` removes leading and trailing whitespace; we model the
ASCII whitespace characters Python strips (space, tab, newline, carriage
return, vertical tab, form feed), which covers every string the backend
manipulates. -/

def pyIsSpace (c : Char) : Bool :=
  c = ' ' || c = '\t' || c = '\n' || c = '\r' || c = '\x0b' || c = '\x0c'

def pyStripList (l : List Char) : List Char :=
  ((l.dropWhile pyIsSpace).reverse.dropWhile pyIsSpace).reverse

def pyStrip (s : String) : String :=
  ⟨pyStripList s.toList⟩

/-! ### Decimal string conversion (`str(n)` and `int(s)` on label ids) -/

def natToStrAux (n : Nat) : List Char :=
  if h : n < 10 then [Nat.digitChar n]
  else natToStrAux (n / 10) ++ [Nat.digitChar (n % 10)]
decreasing_by exact Nat.div_lt_self (by omega) (by omega)

/-- Python `str(n)` for a natural number: its decimal representation. -/
def natToStr (n : Nat) : String := ⟨natToStrAux n⟩

def pyDigit (c : Char) : Option Nat :=
  if '0' ≤ c ∧ c ≤ '9' then some (c.toNat - 48) else none

def pyNatStep (acc : Option Nat) (c : Char) : Option Nat := do
  return (← acc) * 10 + (← pyDigit c)

def pyNatList : List Char → Option Nat
  | [] => none
  | l => l.foldl pyNatStep (some 0)

/-- Python `int(s)` restricted to non-negative decimal strings (the only
strings the backend ever feeds it: keys written as `str(new_id)`).
`none` models the `ValueError` Python raises on a malformed string. -/
def pyNat (s : String) : Option Nat := pyNatList s.toList

/-! ### `sanitize_name` (app.py lines 64-69)

`re.sub(r"[^0-9A-Za-z_\-一-龥]+", "_", str(name).strip())`
replaces every maximal run of disallowed characters by a single
underscore; then the result is truncated to 50 characters and defaults
to `"user"` when empty. -/

def allowedChar (c : Char) : Bool :=
  ('0' ≤ c && c ≤ '9') || ('A' ≤ c && c ≤ 'Z') || ('a' ≤ c && c ≤ 'z') ||
  c = '_' || c = '-' || (0x4e00 ≤ c.toNat && c.toNat ≤ 0x9fa5)

/-- `re.sub(pattern+, "_", ·)` as a left-to-right scan; the boolean flag
records whether the previous character was part of a disallowed run. -/
def subDisallowed : List Char → Bool → List Char
  | [], _ => []
  | c :: rest, inRun =>
    if allowedChar c then c :: subDisallowed rest false
    else if inRun then subDisallowed rest true
    else '_' :: subDisallowed rest true

def sanitize_name (name : String) : String :=
  let s : List Char := subDisallowed (pyStrip name).toList false
  let t : String := ⟨s.take 50⟩
  if t = "" then "user" else t

/-! ### Label registry (app.py lines 46-55, 79-87)

`labels.json` holds `{"name_to_id": {name: id}, "id_to_name": {str(id): name}}`.
Python dicts preserve insertion order; we model them as association lists
with Python's assignment semantics (overwrite in place, else append). -/

structure Labels where
  name_to_id : List (String × Nat)
  id_to_name : List (String × String)
deriving DecidableEq, Repr

def emptyLabels : Labels := ⟨[], []⟩

def dictGet {α : Type} (d : List (String × α)) (k : String) : Option α :=
  d.lookup k

def dictSet {α : Type} (d : List (String × α)) (k : String) (v : α) :
    List (String × α) :=
  if (d.lookup k).isSome then
    d.map (fun p => if p.1 = k then (k, v) else p)
  else d ++ [(k, v)]

/-- `get_or_create_label_id(name, labels)` (app.py lines 79-87): strip the
name; return its id when present; otherwise assign
`1 + max([int(i) for i in labels["id_to_name"].keys()] or [0])`, insert
into both maps and return it.  `none` models the `ValueError` Python
would raise if an `id_to_name` key failed to parse as an integer.
The synchronous `save_labels` write-through is a file effect outside this
pure state transformer. -/
def get_or_create_label_id (name : String) (labels : Labels) :
    Option (Nat × Labels) := do
  match dictGet labels.name_to_id (pyStrip name) with
  | some i => return (i, labels)
  | none =>
    let keys ← labels.id_to_name.mapM (fun p => pyNat p.1)
    let new_id := 1 + keys.foldl max 0
    let labels' : Labels :=
      ⟨dictSet labels.name_to_id (pyStrip name) new_id,
       dictSet labels.id_to_name (natToStr new_id) (pyStrip name)⟩
    return (new_id, labels')

/-- Run a sequence of `get_or_create_label_id` calls, collecting the ids
returned in order together with the final registry. -/
def runGetOrCreate : List String → Labels → Option (List Nat × Labels)
  | [], l => some ([], l)
  | n :: ns, l => do
    let (i, l') ← get_or_create_label_id n l
    let (is, l'') ← runGetOrCreate ns l'
    return (i :: is, l'')

/-! ### JSON persistence of the registry (app.py lines 46-55)

`save_labels` serializes the registry with `json.dump(..., ensure_ascii=False)`;
`load_labels` parses it back with `json.load`.  We model the file's
content at the JSON-value level (the text encoding and its parser are the
`json` library's, external to this program): `save_labels` produces the
JSON value the dump writes, and `load_labels` interprets a parsed JSON
value (or `none` when `labels.json` does not exist) back into a registry. -/

inductive Json where
  | str : String → Json
  | num : Int → Json
  | obj : List (String × Json) → Json

def save_labels (labels : Labels) : Json :=
  .obj [("name_to_id", .obj (labels.name_to_id.map fun p => (p.1, .num p.2))),
        ("id_to_name", .obj (labels.id_to_name.map fun p => (p.1, .str p.2)))]

def decodeNatEntry (p : String × Json) : Option (String × Nat) :=
  match p.2 with
  | .num n => if n < 0 then none else some (p.1, n.toNat)
  | _ => none

def decodeStrEntry (p : String × Json) : Option (String × String) :=
  match p.2 with
  | .str s => some (p.1, s)
  | _ => none

/-- `load_labels()`: when the file is absent, the empty registry; otherwise
the parsed JSON object, interpreted back into the registry structure
(`none` models a file whose shape does not match the registry schema). -/
def load_labels (file : Option Json) : Option Labels :=
  match file with
  | none => some emptyLabels
  | some (.obj [("name_to_id", .obj ni), ("id_to_name", .obj iν)]) => do
    let n2i ← ni.mapM decodeNatEntry
    let i2n ← iν.mapM decodeStrEntry
    return ⟨n2i, i2n⟩
  | some _ => none

/-! ### Boxes, IoU and deduplication (app.py lines 101-130)

A face box is `(x, y, w, h)` with Python `int` coordinates; `_iou`'s
float arithmetic is modelled by exact rationals. -/

abbrev Box := Int × Int × Int × Int

def boxArea (b : Box) : Int := b.2.2.1 * b.2.2.2

def _iou (box_a box_b : Box) : ℚ :=
  let (ax, ay, aw, ah) := box_a
  let (bx, by_, bw, bh) := box_b
  let ax2 : Int := ax + aw
  let ay2 : Int := ay + ah
  let bx2 : Int := bx + bw
  let by2 : Int := by_ + bh
  let inter_x1 := max ax bx
  let inter_y1 := max ay by_
  let inter_x2 := min ax2 bx2
  let inter_y2 := min ay2 by2
  let inter_w := max 0 (inter_x2 - inter_x1)
  let inter_h := max 0 (inter_y2 - inter_y1)
  let inter_area := inter_w * inter_h
  if inter_area ≤ 0 then 0
  else
    let area_a := aw * ah
    let area_b := bw * bh
    (inter_area : ℚ) / ((area_a : ℚ) + (area_b : ℚ) - (inter_area : ℚ) + 1/1000000)

/-- Stable insertion of a box into a list already sorted by area
descending: the box goes after every earlier box of strictly larger or
equal area, mirroring the stability of Python's `sorted(..., reverse=True)`. -/
def insertByArea (b : Box) : List Box → List Box
  | [] => [b]
  | c :: rest =>
    if boxArea c ≤ boxArea b then b :: c :: rest else c :: insertByArea b rest

/-- `sorted(boxes, key=lambda b: b[2]*b[3], reverse=True)`: a stable sort
by area descending. -/
def sortByAreaDesc : List Box → List Box
  | [] => []
  | b :: rest => insertByArea b (sortByAreaDesc rest)

def nmsLoop (iou_threshold : ℚ) : List Box → List Box → List Box
  | kept, [] => kept
  | kept, b :: rest =>
    if kept.all (fun k => _iou b k < iou_threshold) then
      nmsLoop iou_threshold (kept ++ [b]) rest
    else nmsLoop iou_threshold kept rest

def _nms_boxes (boxes : List Box) (iou_threshold : ℚ := 7/20) : List Box :=
  if boxes.length ≤ 1 then boxes
  else nmsLoop iou_threshold [] (sortByAreaDesc boxes)

/-! ### Recognizer service (app.py lines 61, 213-218, 273-301)

`recognizer.predict(face)` is the external LBPH black box: we model it as
a function from the (cropped, resized) face region — identified by its
box — to a `(label_id, distance)` pair, with distances as exact
rationals.  `load_recognizer()` returns `None` exactly when no trained
artifact file exists. -/

def DEFAULT_THRESHOLD : ℚ := 80

/-- `str(label_id)` for the (possibly negative) integer id the external
recognizer returns. -/
def intToStr (i : Int) : String :=
  if i < 0 then "-" ++ natToStr i.natAbs else natToStr i.toNat

abbrev Recognizer := Box → Int × ℚ

/-- `load_recognizer()` (app.py lines 213-218): `None` when no artifact
file exists at `TRAINER_PATH`, otherwise the deserialized recognizer. -/
def load_recognizer (artifact : Option Recognizer) : Option Recognizer :=
  artifact

structure FaceResult where
  rect : Box
  name : String
  confidence : Option ℚ
deriving DecidableEq, Repr

/-- One iteration of the loop in `recognize` (app.py lines 285-298). -/
def recognizeOne (recognizer : Option Recognizer) (labels : Labels) (thr : ℚ)
    (face : Box) : FaceResult :=
  match recognizer with
  | none => ⟨face, "未知", none⟩
  | some pred =>
    let label_id := (pred face).1
    let dist := (pred face).2
    let name := (dictGet labels.id_to_name (intToStr label_id)).getD "未知"
    let name := if dist > thr then "未知" else name
    ⟨face, name, some dist⟩

structure RecognizeResponse where
  result : List FaceResult
  threshold : ℚ
deriving DecidableEq, Repr

/-- `recognize` (app.py lines 273-301) after image decoding and face
detection: the detected boxes, the loaded (optional) artifact and the
registry are inputs; the effective threshold is the request override when
present, else `DEFAULT_THRESHOLD`.  Zero faces yield an empty result, not
an error. -/
def recognize (faces : List Box) (artifact : Option Recognizer)
    (labels : Labels) (threshold : Option ℚ) : RecognizeResponse :=
  let thr := threshold.getD DEFAULT_THRESHOLD
  if faces.length = 0 then ⟨[], thr⟩
  else
    let recognizer := load_recognizer artifact
    ⟨faces.map (recognizeOne recognizer labels thr), thr⟩

/-! ### Sample store and registration (app.py lines 155-175, 247-270)

Sample files live under `DATASET_DIR/<sanitized name>/<idx:03d>.png`; we
model the store as the list of (directory, index) pairs already written,
and the cropped 200x200 grayscale pixels as an opaque payload derived
from the chosen box. -/

structure StoredSample where
  dir : String
  idx : Nat
  face : Box
deriving DecidableEq, Repr

abbrev Store := List StoredSample

/-- The `while` loop of `save_face_sample`: the first index `≥ 1` whose
filename is unused in the identity's directory.  The search is bounded by
`|store| + 1`, which the pigeonhole principle makes sufficient. -/
def firstFreeIdx (store : Store) (dir : String) : Nat :=
  let taken := (store.filter (fun s => s.dir = dir)).map StoredSample.idx
  ((List.range' 1 (taken.length + 1)).find? (fun n => ¬ n ∈ taken)).getD
    (taken.length + 1)

/-- `save_face_sample(name, image)` (app.py lines 155-175): sanitize the
name, detect faces (the detector is passed in as the external black box's
output on this image), fail with `"未检测到人脸"` when none, else crop the
largest box, store it at the first unused index, and return the store and
the path (as a (dir, idx) pair). -/
def save_face_sample (faces : List Box) (name : String) (store : Store) :
    Except String (Store × String × Nat) :=
  let safe_name := sanitize_name name
  if faces.length = 0 then .error "未检测到人脸"
  else
    let largest := (sortByAreaDesc faces).headI
    let idx := firstFreeIdx store safe_name
    .ok (store ++ [⟨safe_name, idx, largest⟩], safe_name, idx)

/-- `register` (app.py lines 247-270), single-image request, after the
transport layer decoded the image: empty name rejected with `"缺少参数"`;
`save_face_sample` runs first, then `get_or_create_label_id` on the
sanitized name; any exception is caught and returned as an HTTP 400 with
the exception's message, leaving the state accumulated so far.  The
background retrain trigger is a separate effect (`trainSteps` below). -/
def register (name : String) (faces : List Box) (store : Store)
    (labels : Labels) :
    Except String (String × Nat) × Store × Labels :=
  if name = "" then (.error "缺少参数", store, labels)
  else
    let safe_name := sanitize_name name
    match save_face_sample faces safe_name store with
    | .error e => (.error e, store, labels)
    | .ok (store', path) =>
      match get_or_create_label_id safe_name labels with
      | none => (.error "invalid label id", store', labels)
      | some (_, labels') => (.ok path, store', labels')

/-! ### Atomic model publication (app.py lines 199-210, 304-314)

Both the synchronous `/train` endpoint and the background `_train` task
publish the artifact the same way: `recognizer.save(tmp)` writes the new
artifact to `TRAINER_PATH + ".tmp"`, then `os.replace(tmp, TRAINER_PATH)`
atomically installs it.  We model the file system as the contents of the
two paths, a non-atomic save as a sequence of appends of byte chunks to
the tmp path, and `os.replace` as the single atomic step POSIX `rename`
guarantees.  A concurrent recognition call reads `canonical` after any
prefix of the trainer's steps. -/

abbrev Artifact := List Nat

structure TrainerFS where
  canonical : Option Artifact
  tmp : Option Artifact
deriving DecidableEq, Repr

inductive TrainStep where
  | createTmp : TrainStep
  | appendTmp : List Nat → TrainStep
  | replaceTmp : TrainStep
deriving DecidableEq, Repr

def applyStep (fs : TrainerFS) : TrainStep → TrainerFS
  | .createTmp => { fs with tmp := some [] }
  | .appendTmp chunk => { fs with tmp := some ((fs.tmp.getD []) ++ chunk) }
  | .replaceTmp => { canonical := fs.tmp, tmp := none }

def runSteps (fs : TrainerFS) (steps : List TrainStep) : TrainerFS :=
  steps.foldl applyStep fs

/-- The trainer's publication sequence for a new artifact written as the
given chunks: `recognizer.save(tmp)` opens (truncates) and writes the tmp
path, then `os.replace` installs it over the canonical path in one atomic
step. -/
def trainSteps (chunks : List (List Nat)) : List TrainStep :=
  TrainStep.createTmp :: chunks.map TrainStep.appendTmp ++ [TrainStep.replaceTmp]

/-- What a concurrent recognition call observes: the canonical path's
content (`load_recognizer` reads only `TRAINER_PATH`). -/
def readCanonical (fs : TrainerFS) : Option Artifact := fs.canonical

/-! ### Canonical registry states

The registry state reached from empty after creating the (already
stripped, pairwise distinct) names `ms` in order: name `ms[j]` holds id
`j+1`. -/

def canonLabels (ms : List String) : Labels :=
  ⟨ms.zip (List.range' 1 ms.length),
   ((List.range' 1 ms.length).map natToStr).zip ms⟩

/-- The stripped names of `names` that are new relative to the already
registered `ms`, first occurrences only, in order — exactly the names a
run of `get_or_create_label_id` calls will create. -/
def dedupNew (ms : List String) : List String → List String
  | [] => []
  | n :: ns =>
    let m := pyStrip n
    if m ∈ ms then dedupNew ms ns else m :: dedupNew (ms ++ [m]) ns

/-! ### The two keys of the registration flow (app.py lines 155-157, 252-265)

`register` sanitizes the raw request name once (line 252) and hands the
result to both `save_face_sample` (which sanitizes again, line 156, and
uses the result as the dataset directory name, line 166) and
`get_or_create_label_id` (which strips it, line 80, and uses the result
as the registry key, lines 84-85). -/

def registerDirKey (name : String) : String :=
  sanitize_name (sanitize_name name)

def registerLabelKey (name : String) : String :=
  pyStrip (sanitize_name name)

/-! ## Helper lemmas: decimal round trip -/

theorem natToStrAux_ne_nil (n : Nat) : natToStrAux n ≠ [] := by
  rw [natToStrAux]
  split <;> simp

theorem pyDigit_digitChar {n : Nat} (h : n < 10) :
    pyDigit (Nat.digitChar n) = some n := by
  interval_cases n <;> decide

theorem pyNatStep_some (a : Nat) {c : Char} {d : Nat} (h : pyDigit c = some d) :
    pyNatStep (some a) c = some (a * 10 + d) := by
  simp [pyNatStep, h]

theorem foldl_pyNatStep (n : Nat) : ∀ (a : Nat),
    List.foldl pyNatStep (some a) (natToStrAux n) =
      some (a * 10 ^ (natToStrAux n).length + n) := by
  induction n using Nat.strong_induction_on with
  | _ n ih =>
    intro a
    rw [natToStrAux]
    split
    · next h =>
      simp [pyNatStep_some a (pyDigit_digitChar h)]
    · next h =>
      rw [List.foldl_append,
        ih (n / 10) (Nat.div_lt_self (by omega) (by omega)) a]
      simp only [List.foldl_cons, List.foldl_nil,
        pyNatStep_some _ (pyDigit_digitChar (Nat.mod_lt n (by omega))),
        List.length_append, List.length_cons, List.length_nil]
      congr 1
      have hdm : 10 * (n / 10) + n % 10 = n := Nat.div_add_mod n 10
      rw [Nat.zero_add, pow_succ]
      calc (a * 10 ^ (natToStrAux (n / 10)).length + n / 10) * 10 + n % 10
          = a * (10 ^ (natToStrAux (n / 10)).length * 10) +
            (10 * (n / 10) + n % 10) := by ring
        _ = _ := by rw [hdm]

theorem pyNat_natToStr (n : Nat) : pyNat (natToStr n) = some n := by
  have hne := natToStrAux_ne_nil n
  have : pyNatList (natToStrAux n) = (natToStrAux n).foldl pyNatStep (some 0) := by
    cases hl : natToStrAux n with
    | nil => exact absurd hl hne
    | cons c cs => rfl
  show pyNatList (natToStrAux n) = some n
  rw [this, foldl_pyNatStep n 0]
  simp

theorem natToStr_inj {a b : Nat} (h : natToStr a = natToStr b) : a = b := by
  have ha := pyNat_natToStr a
  rw [h, pyNat_natToStr b] at ha
  exact (Option.some.inj ha).symm

/-! ## Helper lemmas: max fold over assigned ids -/

theorem foldl_max_range' (n : Nat) :
    List.foldl max 0 (List.range' 1 n) = n := by
  induction n with
  | zero => rfl
  | succ k ih =>
    rw [List.range'_1_concat, List.foldl_append, ih]
    simp
    omega

/-! ## Helper lemmas: lookups in canonical registry states -/

theorem lookup_zip_range' :
    ∀ (ms : List String) (s : Nat) (m : String) (i : Nat), ms.Nodup →
      (List.lookup m (ms.zip (List.range' s ms.length)) = some i ↔
        ∃ j, ms[j]? = some m ∧ i = s + j)
  | [], s, m, i, _ => by simp
  | m' :: tail, s, m, i, hnd => by
    rw [List.length_cons, List.range'_succ, List.zip_cons_cons, List.lookup_cons]
    have htail := lookup_zip_range' tail (s + 1) m i (List.Nodup.of_cons hnd)
    rcases hbe : m == m' with _ | _
    · have hne : m ≠ m' := by simpa using hbe
      simp only []
      rw [htail]
      constructor
      · rintro ⟨j, hj, hi⟩
        exact ⟨j + 1, by simpa using hj, by omega⟩
      · rintro ⟨j, hj, hi⟩
        cases j with
        | zero => simp at hj; exact absurd hj.symm hne
        | succ j' => exact ⟨j', by simpa using hj, by omega⟩
    · have heq : m = m' := by simpa using hbe
      subst heq
      have hnotmem : m ∉ tail := (List.nodup_cons.mp hnd).1
      simp only []
      constructor
      · intro hsome
        have : s = i := Option.some.inj hsome
        exact ⟨0, by simp, by omega⟩
      · rintro ⟨j, hj, hi⟩
        cases j with
        | zero => simp at hj; simp [hi]
        | succ j' =>
          have : m ∈ tail := List.getElem?_mem (by simpa using hj)
          exact absurd this hnotmem

theorem lookup_natToStr_zip :
    ∀ (ms : List String) (s : Nat) (i : Nat) (n : String),
      (List.lookup (natToStr i)
          (((List.range' s ms.length).map natToStr).zip ms) = some n ↔
        ∃ j, ms[j]? = some n ∧ i = s + j)
  | [], s, i, n => by simp
  | m' :: tail, s, i, n => by
    rw [List.length_cons, List.range'_succ, List.map_cons, List.zip_cons_cons,
      List.lookup_cons]
    have htail := lookup_natToStr_zip tail (s + 1) i n
    rcases hbe : natToStr i == natToStr s with _ | _
    · have hne : i ≠ s := fun his => by simp [his] at hbe
      simp only []
      rw [htail]
      constructor
      · rintro ⟨j, hj, hi⟩
        exact ⟨j + 1, by simpa using hj, by omega⟩
      · rintro ⟨j, hj, hi⟩
        cases j with
        | zero => omega
        | succ j' => exact ⟨j', by simpa using hj, by omega⟩
    · have heq : i = s := natToStr_inj (by simpa using hbe)
      subst heq
      simp only []
      constructor
      · intro hsome
        exact ⟨0, by simpa using hsome, by omega⟩
      · rintro ⟨j, hj, hi⟩
        have hj0 : j = 0 := by omega
        subst hj0
        simp at hj
        simp [hj]

theorem lookup_zip_of_not_mem {m : String} :
    ∀ (ms : List String) (r : List Nat), m ∉ ms →
      List.lookup m (ms.zip r) = none
  | [], _, _ => by simp
  | m' :: tail, [], _ => by simp
  | m' :: tail, i :: r, hmem => by
    rw [List.zip_cons_cons, List.lookup_cons]
    have hne : m ≠ m' := fun h => hmem (h ▸ List.mem_cons_self m' tail)
    rcases hbe : m == m' with _ | _
    · exact lookup_zip_of_not_mem tail r (fun h => hmem (List.mem_cons_of_mem _ h))
    · exact absurd (by simpa using hbe) hne

theorem lookup_zip_of_mem {m : String} :
    ∀ (ms : List String) (s : Nat), m ∈ ms →
      ∃ i, List.lookup m (ms.zip (List.range' s ms.length)) = some i
  | [], _, hmem => absurd hmem (List.not_mem_nil m)
  | m' :: tail, s, hmem => by
    rw [List.length_cons, List.range'_succ, List.zip_cons_cons, List.lookup_cons]
    rcases hbe : m == m' with _ | _
    · have hne : m ≠ m' := by simpa using hbe
      have : m ∈ tail := by
        rcases List.mem_cons.mp hmem with h | h
        · exact absurd h hne
        · exact h
      simpa using lookup_zip_of_mem tail (s + 1) this
    · exact ⟨s, rfl⟩

theorem mapM'_pyNat_keys :
    ∀ (r : List Nat) (ms : List String), r.length = ms.length →
      List.mapM' (fun p => pyNat p.1) ((r.map natToStr).zip ms) = some r
  | [], ms, _ => by simp
  | a :: r', [], h => by simp at h
  | a :: r', m :: tail, h => by
    rw [List.map_cons, List.zip_cons_cons, List.mapM'_cons]
    have ih := mapM'_pyNat_keys r' tail (by simpa using h)
    simp [pyNat_natToStr, ih]

theorem mapM_pyNat_keys (r : List Nat) (ms : List String)
    (h : r.length = ms.length) :
    ((r.map natToStr).zip ms).mapM (fun p => pyNat p.1) = some r := by
  rw [← List.mapM'_eq_mapM]
  exact mapM'_pyNat_keys r ms h

/-! ## Helper lemmas: `get_or_create_label_id` on canonical states -/

theorem canonLabels_append (ms : List String) (m : String) :
    canonLabels (ms ++ [m]) =
      ⟨(canonLabels ms).name_to_id ++ [(m, 1 + ms.length)],
       (canonLabels ms).id_to_name ++ [(natToStr (1 + ms.length), m)]⟩ := by
  unfold canonLabels
  have hlen : (ms ++ [m]).length = ms.length + 1 := by simp
  rw [hlen, List.range'_1_concat, List.map_append]
  congr 1
  · rw [List.zip_append (by simp)]
    rfl
  · rw [List.zip_append (by simp)]
    rfl

theorem get_or_create_new (ms : List String) (n : String)
    (hnew : pyStrip n ∉ ms) :
    get_or_create_label_id n (canonLabels ms) =
      some (1 + ms.length, canonLabels (ms ++ [pyStrip n])) := by
  have hget : dictGet (canonLabels ms).name_to_id (pyStrip n) = none :=
    lookup_zip_of_not_mem ms _ hnew
  have hkeys : (canonLabels ms).id_to_name.mapM (fun p => pyNat p.1) =
      some (List.range' 1 ms.length) :=
    mapM_pyNat_keys _ _ (by simp)
  have hmax : List.foldl max 0 (List.range' 1 ms.length) = ms.length :=
    foldl_max_range' ms.length
  have hget' : List.lookup (pyStrip n) (canonLabels ms).name_to_id = none := hget
  have hset1 : dictSet (canonLabels ms).name_to_id (pyStrip n)
      (1 + ms.length) = (canonLabels ms).name_to_id ++
        [(pyStrip n, 1 + ms.length)] := by
    unfold dictSet
    rw [hget']
    rfl
  have hget2 : List.lookup (natToStr (1 + ms.length))
      (canonLabels ms).id_to_name = none := by
    cases hl : List.lookup (natToStr (1 + ms.length))
        (canonLabels ms).id_to_name with
    | none => rfl
    | some n' =>
      obtain ⟨j, hj, hij⟩ := (lookup_natToStr_zip ms 1 (1 + ms.length) n').mp hl
      have hjlt : j < ms.length := by
        have := List.getElem?_eq_some_iff.mp hj
        exact this.1
      omega
  have hset2 : dictSet (canonLabels ms).id_to_name
      (natToStr (1 + ms.length)) (pyStrip n) = (canonLabels ms).id_to_name ++
        [(natToStr (1 + ms.length), pyStrip n)] := by
    unfold dictSet
    rw [hget2]
    rfl
  unfold get_or_create_label_id
  rw [hget]
  simp only [hkeys, Option.bind_eq_bind, Option.some_bind, Option.pure_def,
    hmax, hset1, hset2, canonLabels_append]

theorem get_or_create_old (ms : List String) (n : String)
    (hmem : pyStrip n ∈ ms) :
    ∃ i, get_or_create_label_id n (canonLabels ms) =
      some (i, canonLabels ms) := by
  obtain ⟨i, hi⟩ := lookup_zip_of_mem ms 1 hmem
  refine ⟨i, ?_⟩
  unfold get_or_create_label_id
  have hget : dictGet (canonLabels ms).name_to_id (pyStrip n) = some i := hi
  rw [hget]
  rfl

/-! ## Helper lemmas: runs of `get_or_create_label_id` -/

theorem canonLabels_nil : canonLabels [] = emptyLabels := rfl

theorem nodup_append_dedupNew :
    ∀ (names ms : List String), ms.Nodup → (ms ++ dedupNew ms names).Nodup
  | [], ms, h => by simpa [dedupNew] using h
  | n :: ns, ms, h => by
    rw [dedupNew]
    by_cases hmem : pyStrip n ∈ ms
    · rw [if_pos hmem]
      exact nodup_append_dedupNew ns ms h
    · rw [if_neg hmem]
      have : ms ++ pyStrip n :: dedupNew (ms ++ [pyStrip n]) ns =
          (ms ++ [pyStrip n]) ++ dedupNew (ms ++ [pyStrip n]) ns := by
        simp
      rw [this]
      refine nodup_append_dedupNew ns (ms ++ [pyStrip n]) ?_
      simp [List.nodup_append, h, hmem]

theorem runGetOrCreate_fresh :
    ∀ (names ms : List String), (ms ++ names.map pyStrip).Nodup →
      runGetOrCreate names (canonLabels ms) =
        some (List.range' (ms.length + 1) names.length,
          canonLabels (ms ++ names.map pyStrip))
  | [], ms, _ => by simp [runGetOrCreate]
  | n :: ns, ms, h => by
    have hnew : pyStrip n ∉ ms := by
      intro hmem
      have : ¬ List.Disjoint ms (List.map pyStrip (n :: ns)) := by
        intro hd
        exact hd hmem (by simp)
      exact this (List.nodup_append.mp h).2.2
    have hstep := get_or_create_new ms n hnew
    have hrest : ((ms ++ [pyStrip n]) ++ ns.map pyStrip).Nodup := by
      simpa using h
    have ih := runGetOrCreate_fresh ns (ms ++ [pyStrip n]) hrest
    rw [runGetOrCreate]
    rw [hstep]
    simp only [Option.bind_eq_bind, Option.some_bind, ih, Option.pure_def]
    have hlen : (ms ++ [pyStrip n]).length = ms.length + 1 := by simp
    rw [hlen]
    have hr : List.range' (ms.length + 1) (ns.length + 1) =
        (ms.length + 1) :: List.range' (ms.length + 2) ns.length := by
      rw [List.range'_succ]
    simp only [List.length_cons, List.length_map, hr, List.map_cons]
    have h1 : 1 + ms.length = ms.length + 1 := by omega
    have h2 : ms.length + 1 + 1 = ms.length + 2 := by omega
    have h3 : ms ++ [pyStrip n] ++ List.map pyStrip ns =
        ms ++ pyStrip n :: List.map pyStrip ns := by simp
    rw [h1, h2, h3]

theorem runGetOrCreate_any :
    ∀ (names ms : List String), ms.Nodup →
      ∃ ids, runGetOrCreate names (canonLabels ms) =
        some (ids, canonLabels (ms ++ dedupNew ms names))
  | [], ms, _ => ⟨[], by simp [runGetOrCreate, dedupNew]⟩
  | n :: ns, ms, h => by
    rw [dedupNew]
    by_cases hmem : pyStrip n ∈ ms
    · rw [if_pos hmem]
      obtain ⟨i, hstep⟩ := get_or_create_old ms n hmem
      obtain ⟨ids, hrest⟩ := runGetOrCreate_any ns ms h
      refine ⟨i :: ids, ?_⟩
      rw [runGetOrCreate, hstep]
      simp [hrest]
    · rw [if_neg hmem]
      have hstep := get_or_create_new ms n hmem
      have hnd : (ms ++ [pyStrip n]).Nodup := by
        simp [List.nodup_append, h, hmem]
      obtain ⟨ids, hrest⟩ := runGetOrCreate_any ns (ms ++ [pyStrip n]) hnd
      refine ⟨(1 + ms.length) :: ids, ?_⟩
      rw [runGetOrCreate, hstep]
      simp only [Option.bind_eq_bind, Option.some_bind, hrest, Option.pure_def]
      congr 2
      simp

theorem canonLabels_inverse (ms : List String) (hnd : ms.Nodup) (n : String)
    (i : Nat) :
    dictGet (canonLabels ms).name_to_id n = some i ↔
      dictGet (canonLabels ms).id_to_name (natToStr i) = some n := by
  show List.lookup n (ms.zip (List.range' 1 ms.length)) = some i ↔
    List.lookup (natToStr i) (((List.range' 1 ms.length).map natToStr).zip ms)
      = some n
  rw [lookup_zip_range' ms 1 n i hnd, lookup_natToStr_zip ms 1 i n]

/-! ## Claim theorems -/

/-- Claim C2: starting from the empty registry, a sequence of
`get_or_create_label_id` calls on names that are pairwise distinct new
names (distinct after the whitespace-stripping the function itself
applies, so that every call takes the create path) assigns the ids
`1, 2, …, n` in order — in particular the ids are pairwise distinct, and
each new id is `1 + max(existing ids, default 0)` by the function's
definition. -/
theorem get_or_create_ids_sequential (names : List String)
    (h : (names.map pyStrip).Nodup) :
    runGetOrCreate names emptyLabels =
      some (List.range' 1 names.length, canonLabels (names.map pyStrip)) := by
  have := runGetOrCreate_fresh names [] (by simpa using h)
  simpa [canonLabels_nil] using this

/-- Witness for C2 at a concrete input: the names `["alice", "bob"]` get
ids `[1, 2]`. -/
theorem get_or_create_ids_sequential_witness :
    runGetOrCreate ["alice", "bob"] emptyLabels =
      some (List.range' 1 2, canonLabels ["alice", "bob"]) :=
  get_or_create_ids_sequential ["alice", "bob"] (by decide)

/-- Claim C9: in every registry state reachable from the empty registry
by `get_or_create_label_id` calls, the two maps are mutual inverses:
`name_to_id` maps `n` to `i` exactly when `id_to_name` maps the string
key `str(i)` to `n`. -/
theorem registry_mutual_inverse (names : List String) (ids : List Nat)
    (l : Labels) (h : runGetOrCreate names emptyLabels = some (ids, l))
    (n : String) (i : Nat) :
    dictGet l.name_to_id n = some i ↔
      dictGet l.id_to_name (natToStr i) = some n := by
  obtain ⟨ids', h'⟩ := runGetOrCreate_any names [] List.nodup_nil
  rw [canonLabels_nil] at h'
  rw [h'] at h
  have hl : l = canonLabels ([] ++ dedupNew [] names) :=
    congrArg Prod.snd (Option.some.inj h) |>.symm
  rw [hl]
  exact canonLabels_inverse _ (nodup_append_dedupNew names [] List.nodup_nil)
    n i

/-- Witness for C9 at a concrete input: after registering `"alice"`,
`name_to_id` maps `"alice"` to 1 iff `id_to_name` maps `"1"` to
`"alice"`. -/
theorem registry_mutual_inverse_witness :
    dictGet (canonLabels ["alice"]).name_to_id "alice" = some 1 ↔
      dictGet (canonLabels ["alice"]).id_to_name (natToStr 1) = some "alice" :=
  registry_mutual_inverse ["alice"] [1] (canonLabels ["alice"])
    (by
      show runGetOrCreate ["alice"] (canonLabels []) = _
      rw [runGetOrCreate_fresh ["alice"] [] (by decide)]
      rfl)
    "alice" 1

theorem recognizeOne_some (pred : Recognizer) (labels : Labels) (thr : ℚ)
    (face : Box) :
    recognizeOne (some pred) labels thr face =
      ⟨face,
       if thr < (pred face).2 then "未知"
       else (dictGet labels.id_to_name (intToStr (pred face).1)).getD "未知",
       some (pred face).2⟩ := by
  unfold recognizeOne
  simp [gt_iff_lt]

/-- Claim C1: in `recognize`, for every detected face box the reported
name is overridden to unknown (`"未知"`) exactly when the predicted
distance strictly exceeds the effective threshold (the request override
when supplied, else `DEFAULT_THRESHOLD = 80`); a distance equal to the
threshold keeps the predicted name, and the distance is reported in the
result either way. -/
theorem recognize_unknown_iff_distance_exceeds (faces : List Box)
    (pred : Recognizer) (labels : Labels) (threshold : Option ℚ) :
    (recognize faces (some pred) labels threshold).result =
      faces.map (fun face =>
        ⟨face,
         if threshold.getD DEFAULT_THRESHOLD < (pred face).2 then "未知"
         else (dictGet labels.id_to_name (intToStr (pred face).1)).getD "未知",
         some (pred face).2⟩) := by
  unfold recognize
  split
  · next h =>
    rw [List.length_eq_zero.mp h]
    rfl
  · next h =>
    show faces.map (recognizeOne (load_recognizer (some pred)) labels
      (threshold.getD DEFAULT_THRESHOLD)) = _
    unfold load_recognizer
    exact List.map_congr_left fun face _ => recognizeOne_some pred labels _ face

/-- Claim C6: when no model artifact exists yet (`load_recognizer`
returns `None`), `recognize` reports every detected box with name
unknown (`"未知"`) and a null confidence, succeeding rather than raising
an error. -/
theorem recognize_cold_start (faces : List Box) (labels : Labels)
    (threshold : Option ℚ) :
    (recognize faces none labels threshold).result =
      faces.map (fun b => ⟨b, "未知", none⟩) := by
  unfold recognize
  split
  · next h =>
    rw [List.length_eq_zero.mp h]
    rfl
  · next h =>
    rfl

/-- Claim C4, counterexample: `IoU(b, b)` is NOT exactly `1.0` — even for
the well-formed box `(0, 0, 100, 100)` the epsilon in the denominator
makes the quotient `10000 / (10000 + 10⁻⁶) < 1`. -/
theorem iou_self_ne_one :
    _iou (0, 0, 100, 100) (0, 0, 100, 100) ≠ 1 := by
  norm_num [_iou, max_def, min_def]

/-- Claim C4, amended: for every face box with positive width and height,
`IoU(b, b)` equals `area / (area + 1e-6)`, which is strictly less than
`1.0` (and within `1e-6` of it). -/
theorem iou_self_eps (x y w h : Int) (hw : 0 < w) (hh : 0 < h) :
    _iou (x, y, w, h) (x, y, w, h) =
      ((w * h : Int) : ℚ) / (((w * h : Int) : ℚ) + 1 / 1000000) ∧
    1 - 1 / 1000000 < _iou (x, y, w, h) (x, y, w, h) ∧
    _iou (x, y, w, h) (x, y, w, h) < 1 := by
  have harea : (0 : Int) < w * h := mul_pos hw hh
  have hq : (1 : ℚ) ≤ ((w * h : Int) : ℚ) := by
    exact_mod_cast harea
  have heval : _iou (x, y, w, h) (x, y, w, h) =
      ((w * h : Int) : ℚ) / (((w * h : Int) : ℚ) + 1 / 1000000) := by
    simp only [_iou, max_self, min_self, add_sub_cancel_left]
    rw [max_eq_right hw.le, max_eq_right hh.le]
    rw [if_neg (by omega : ¬ w * h ≤ 0)]
    push_cast
    ring_nf
  refine ⟨heval, ?_, ?_⟩
  · rw [heval]
    rw [lt_div_iff₀ (by linarith)]
    nlinarith
  · rw [heval]
    rw [div_lt_one (by linarith)]
    linarith

/-- Witness for the amended C4 at the concrete box `(0, 0, 100, 100)`. -/
theorem iou_self_eps_witness :
    _iou (0, 0, 100, 100) (0, 0, 100, 100) =
      ((100 * 100 : Int) : ℚ) / (((100 * 100 : Int) : ℚ) + 1 / 1000000) ∧
    1 - 1 / 1000000 < _iou (0, 0, 100, 100) (0, 0, 100, 100) ∧
    _iou (0, 0, 100, 100) (0, 0, 100, 100) < 1 :=
  iou_self_eps 0 0 100 100 (by norm_num) (by norm_num)

/-- Claim C5: on boxes `A = (0,0,100,100)`, `B = (10,10,100,100)` and
`C = (500,500,50,50)` with IoU threshold `0.35`, `_nms_boxes` keeps
exactly `[A, C]`, discarding `B` as a smaller overlapping duplicate of
`A`. -/
theorem nms_dedup_example :
    _nms_boxes [(0, 0, 100, 100), (10, 10, 100, 100), (500, 500, 50, 50)]
        (7 / 20) =
      [(0, 0, 100, 100), (500, 500, 50, 50)] := by
  have hsort : sortByAreaDesc
      [((0 : Int), (0 : Int), (100 : Int), (100 : Int)),
       (10, 10, 100, 100), (500, 500, 50, 50)] =
      [(0, 0, 100, 100), (10, 10, 100, 100), (500, 500, 50, 50)] := by
    decide
  have hBA : ¬ (_iou (10, 10, 100, 100) (0, 0, 100, 100) < 7 / 20) := by
    norm_num [_iou, max_def, min_def]
  have hCA : _iou (500, 500, 50, 50) (0, 0, 100, 100) < 7 / 20 := by
    norm_num [_iou, max_def, min_def]
  unfold _nms_boxes
  rw [if_neg (by norm_num)]
  rw [hsort]
  rw [nmsLoop]
  rw [if_pos (by simp)]
  rw [List.nil_append]
  rw [nmsLoop]
  rw [if_neg (by
    simp only [List.all_cons, List.all_nil, Bool.and_true, decide_eq_true_eq]
    exact hBA)]
  rw [nmsLoop]
  rw [if_pos (by
    simp only [List.all_cons, List.all_nil, Bool.and_true, decide_eq_true_eq]
    exact hCA)]
  rw [nmsLoop]
  rfl

theorem canonical_unchanged_of_no_replace (steps : List TrainStep) :
    ∀ fs : TrainerFS, (∀ s ∈ steps, s ≠ TrainStep.replaceTmp) →
      (runSteps fs steps).canonical = fs.canonical := by
  induction steps with
  | nil => intro fs _; rfl
  | cons s rest ih =>
    intro fs h
    have hs := h s (List.mem_cons_self s rest)
    have hcan : (applyStep fs s).canonical = fs.canonical := by
      cases s with
      | createTmp => rfl
      | appendTmp c => rfl
      | replaceTmp => exact absurd rfl hs
    show (runSteps (applyStep fs s) rest).canonical = fs.canonical
    rw [ih (applyStep fs s) (fun t ht => h t (List.mem_cons_of_mem _ ht)), hcan]

theorem runSteps_append_chunks :
    ∀ (chunks : List (List Nat)) (fs : TrainerFS) (acc : List Nat),
      fs.tmp = some acc →
      runSteps fs (chunks.map TrainStep.appendTmp) =
        ⟨fs.canonical, some (acc ++ chunks.flatten)⟩
  | [], fs, acc, h => by
    cases fs
    simp_all [runSteps]
  | c :: cs, fs, acc, h => by
    rw [List.map_cons]
    show runSteps (applyStep fs (.appendTmp c)) (cs.map .appendTmp) = _
    rw [runSteps_append_chunks cs _ (acc ++ c) (by simp [applyStep, h])]
    simp [applyStep, List.append_assoc]

/-- Claim C3: model publication is atomic.  The trainer writes the whole
new artifact to the tmp path (create + appends) and installs it over the
canonical path with a single atomic `os.replace` step; after ANY prefix
of the trainer's steps, a concurrent reader of the canonical path sees
either the complete pre-retrain content or the complete post-retrain
artifact — never a partial one.  (`os.replace`'s own atomicity is the
POSIX `rename` guarantee and is the model's single primitive step.) -/
theorem train_atomic_publish (fs₀ : TrainerFS) (chunks : List (List Nat))
    (k : Nat) :
    readCanonical (runSteps fs₀ ((trainSteps chunks).take k)) =
        readCanonical fs₀ ∨
      readCanonical (runSteps fs₀ ((trainSteps chunks).take k)) =
        some chunks.flatten := by
  by_cases hk : k ≤ chunks.length + 1
  · left
    have hpre : (trainSteps chunks).take k =
        (TrainStep.createTmp :: chunks.map .appendTmp).take k := by
      unfold trainSteps
      rw [List.take_append_eq_append_take]
      have : k - (TrainStep.createTmp :: chunks.map .appendTmp).length = 0 := by
        simp
        omega
      rw [this]
      simp
    rw [hpre]
    apply canonical_unchanged_of_no_replace
    intro s hs
    have hmem : s ∈ TrainStep.createTmp :: chunks.map .appendTmp :=
      List.take_subset _ _ hs
    rcases List.mem_cons.mp hmem with h | h
    · subst h
      intro hc
      cases hc
    · obtain ⟨c, _, rfl⟩ := List.mem_map.mp h
      intro hc
      cases hc
  · right
    have hall : (trainSteps chunks).take k = trainSteps chunks :=
      List.take_of_length_le (by unfold trainSteps; simp; omega)
    rw [hall]
    unfold trainSteps
    show readCanonical (List.foldl applyStep fs₀
      ((TrainStep.createTmp :: chunks.map .appendTmp) ++ [.replaceTmp])) = _
    rw [List.foldl_append]
    show readCanonical (applyStep (runSteps (applyStep fs₀ .createTmp)
      (chunks.map .appendTmp)) .replaceTmp) = _
    rw [runSteps_append_chunks chunks (applyStep fs₀ .createTmp) [] rfl]
    simp [applyStep, readCanonical]

/-- Claim C7: a (single-image) registration request whose image contains
zero detected faces is rejected with the `"未检测到人脸"` error, and on
that failure no sample is written to the store and the label registry is
left unchanged. -/
theorem register_no_face (name : String) (store : Store) (labels : Labels)
    (hname : name ≠ "") :
    register name [] store labels =
      (.error "未检测到人脸", store, labels) := by
  unfold register
  rw [if_neg hname]
  rfl

/-- Witness for C7 at a concrete input. -/
theorem register_no_face_witness :
    register "alice" [] [] emptyLabels =
      (.error "未检测到人脸", [], emptyLabels) :=
  register_no_face "alice" [] emptyLabels (by decide)

theorem mapM'_decodeNatEntry (l : List (String × Nat)) :
    List.mapM' decodeNatEntry (l.map fun p => (p.1, Json.num p.2)) =
      some l := by
  induction l with
  | nil => rfl
  | cons p tail ih =>
    rw [List.map_cons, List.mapM'_cons, ih]
    have hnn : ¬ ((p.2 : Int) < 0) := Int.not_lt.mpr (Int.natCast_nonneg p.2)
    simp [decodeNatEntry, hnn]

theorem mapM'_decodeStrEntry (l : List (String × String)) :
    List.mapM' decodeStrEntry (l.map fun p => (p.1, Json.str p.2)) =
      some l := by
  induction l with
  | nil => rfl
  | cons p tail ih =>
    rw [List.map_cons, List.mapM'_cons, ih]
    simp [decodeStrEntry]

/-- Claim C8: saving any registry value — unicode identity names
included, since names are arbitrary strings here — and loading it back
returns a registry equal to the one saved. -/
theorem save_load_roundtrip (labels : Labels) :
    load_labels (some (save_labels labels)) = some labels := by
  show (do
    let n2i ← (labels.name_to_id.map fun p => (p.1, Json.num p.2)).mapM
      decodeNatEntry
    let i2n ← (labels.id_to_name.map fun p => (p.1, Json.str p.2)).mapM
      decodeStrEntry
    pure (⟨n2i, i2n⟩ : Labels) : Option Labels) = some labels
  rw [← List.mapM'_eq_mapM, ← List.mapM'_eq_mapM, mapM'_decodeNatEntry,
    mapM'_decodeStrEntry]
  rfl

/-! ## Helper lemmas: sanitization -/

theorem subDisallowed_allowed :
    ∀ (l : List Char) (b : Bool), ∀ c ∈ subDisallowed l b, allowedChar c = true
  | [], _, c, hc => absurd hc (List.not_mem_nil c)
  | a :: rest, b, c, hc => by
    rw [subDisallowed] at hc
    split at hc
    · next ha =>
      rcases List.mem_cons.mp hc with h | h
      · exact h ▸ ha
      · exact subDisallowed_allowed rest false c h
    · split at hc
      · exact subDisallowed_allowed rest true c hc
      · rcases List.mem_cons.mp hc with h | h
        · subst h
          decide
        · exact subDisallowed_allowed rest true c h

theorem allowed_not_space {c : Char} (h : allowedChar c = true) :
    pyIsSpace c = false := by
  by_contra hs
  rw [Bool.not_eq_false] at hs
  have h6 : c = ' ' ∨ c = '\t' ∨ c = '\n' ∨ c = '\r' ∨ c = '\x0b' ∨
      c = '\x0c' := by
    simpa [pyIsSpace, or_assoc] using hs
  rcases h6 with rfl | rfl | rfl | rfl | rfl | rfl <;> exact absurd h (by decide)

theorem dropWhile_eq_self_of (p : Char → Bool) (l : List Char)
    (h : ∀ c ∈ l, p c = false) : l.dropWhile p = l := by
  cases l with
  | nil => rfl
  | cons c cs =>
    rw [List.dropWhile_cons]
    rw [h c (List.mem_cons_self c cs)]
    simp

theorem pyStripList_eq_self (l : List Char)
    (h : ∀ c ∈ l, pyIsSpace c = false) : pyStripList l = l := by
  unfold pyStripList
  rw [dropWhile_eq_self_of _ l h]
  rw [dropWhile_eq_self_of _ l.reverse
    (fun c hc => h c (List.mem_reverse.mp hc))]
  exact List.reverse_reverse l

theorem subDisallowed_eq_self :
    ∀ (l : List Char), (∀ c ∈ l, allowedChar c = true) →
      subDisallowed l false = l
  | [], _ => rfl
  | c :: rest, h => by
    rw [subDisallowed]
    rw [if_pos (h c (List.mem_cons_self c rest))]
    rw [subDisallowed_eq_self rest (fun d hd => h d (List.mem_cons_of_mem _ hd))]

theorem sanitize_name_eq (name : String) :
    sanitize_name name =
      if (⟨(subDisallowed (pyStrip name).toList false).take 50⟩ : String) = ""
      then "user"
      else ⟨(subDisallowed (pyStrip name).toList false).take 50⟩ := rfl

theorem sanitize_chars_allowed (name : String) :
    ∀ c ∈ (sanitize_name name).toList, allowedChar c = true := by
  rw [sanitize_name_eq]
  split
  · intro c hc
    have : c ∈ ['u', 's', 'e', 'r'] := hc
    fin_cases this <;> decide
  · intro c hc
    exact subDisallowed_allowed _ false c (List.mem_of_mem_take hc)

theorem sanitize_length_le (name : String) :
    (sanitize_name name).toList.length ≤ 50 := by
  rw [sanitize_name_eq]
  split
  · decide
  · show (List.take 50 _).length ≤ 50
    simp [List.length_take]

theorem sanitize_ne_empty (name : String) : sanitize_name name ≠ "" := by
  rw [sanitize_name_eq]
  split
  · decide
  · next h => exact h

theorem string_mk_toList (s : String) : String.mk s.toList = s := rfl

theorem pyStrip_sanitize (name : String) :
    pyStrip (sanitize_name name) = sanitize_name name := by
  show String.mk (pyStripList (sanitize_name name).toList) = _
  rw [pyStripList_eq_self _
    (fun c hc => allowed_not_space (sanitize_chars_allowed name c hc))]
  exact string_mk_toList _

theorem sanitize_sanitize (name : String) :
    sanitize_name (sanitize_name name) = sanitize_name name := by
  rw [sanitize_name_eq (sanitize_name name)]
  rw [pyStrip_sanitize]
  rw [subDisallowed_eq_self _ (sanitize_chars_allowed name)]
  rw [List.take_of_length_le (sanitize_length_le name)]
  rw [string_mk_toList]
  rw [if_neg (sanitize_ne_empty name)]

/-- Claim C10: name sanitization is idempotent, and consequently the
registration flow — which sanitizes once in `register` and again inside
`save_face_sample`, while `get_or_create_label_id` strips its input —
stores samples under exactly the same directory key
(`registerDirKey`) that it registers in the label registry
(`registerLabelKey`). -/
theorem sanitize_idempotent_keys_agree (name : String) :
    sanitize_name (sanitize_name name) = sanitize_name name ∧
    registerDirKey name = registerLabelKey name := by
  refine ⟨sanitize_sanitize name, ?_⟩
  unfold registerDirKey registerLabelKey
  rw [sanitize_sanitize name, pyStrip_sanitize name]

end Shijue
